import Mathlib

/-
Verification of the shell-style lexer of the `parse` repository
(`parse.go`, `simpleio.c`).  Bytes are modelled as `Nat`, byte slices as
`List Nat`.  The Go implementation (`src/parse.go`) is the authority; the
in-place buffer mutation of `tokenize` is modelled by threading the
compacted output prefix (`out`, the bytes written so far, i.e.
`data[0 : i-shift]`) and the pending token start index (`start`, with the
Go sentinel `-1` rendered as `none`).
-/

set_option maxHeartbeats 1000000

/-- Whitespace test of `unicode.IsSpace` restricted to single-byte
characters (`rune(c)` for a byte `c`): tab, LF, VT, FF, CR, space,
NEL (0x85) and NBSP (0xA0).  Mirrors `unicode.IsSpace(rune(c))` in
`tokenize` and `countMaxTokens` (parse.go). -/
def isSpace (c : Nat) : Bool :=
  c == 9 || c == 10 || c == 11 || c == 12 || c == 13 || c == 32 || c == 133 || c == 160

/-- State of the `tokenize` loop in parse.go: the token list built so far,
the compacted output prefix `out` (the Go code writes `data[i-shift] = c`;
`out` is `data[0 : i-shift]`), the pending token start (`start`, Go `-1`
is `none`), and the `wasSpace` / `escaped` / `quote` variables (Go's
`quote` is a `byte`, `0` meaning "no quote open"). -/
structure TkState where
  tokens : List (List Nat)
  out : List Nat
  start : Option Nat
  wasSpace : Bool
  escaped : Bool
  quote : Nat
  deriving DecidableEq, Repr

/-- One iteration of the `for i, c := range data` loop of `tokenize`
(parse.go).  When `escaped` is set the structural block is skipped, the
escape flag is cleared and the character is copied verbatim.  Otherwise in
the unquoted state the quote / whitespace bookkeeping of the source runs
(a token is emitted via `data[start:i-shift]`, i.e. `out.drop start`;
the Go code only emits while `start ≠ -1`, rendered with `getD 0`), and in
a quoted state only the closing-quote check runs.  Deleted characters
(unescaped backslashes and structural quotes) are not written to `out`. -/
def tkStep (s : TkState) (c : Nat) : TkState :=
  if s.escaped = true then
    { s with escaped := false, out := s.out ++ [c] }
  else if s.quote = 0 then
    { tokens := if s.wasSpace = false ∧ isSpace c = true then
                  s.tokens ++ [s.out.drop (s.start.getD 0)]
                else s.tokens
      out := if c = 92 ∨ c = 39 ∨ c = 34 then s.out else s.out ++ [c]
      start := if s.wasSpace = true ∧ isSpace c = false then some s.out.length
               else if s.wasSpace = false ∧ isSpace c = true then none
               else s.start
      wasSpace := isSpace c
      escaped := if c = 92 then true else false
      quote := if c = 39 ∨ c = 34 then c else 0 }
  else
    { s with
      out := if c = 92 ∨ c = s.quote then s.out else s.out ++ [c]
      escaped := if c = 92 then true else false
      quote := if c = s.quote then 0 else s.quote }

/-- Initial state of the `tokenize` loop. -/
def tkInit : TkState := ⟨[], [], none, true, false, 0⟩

/-- The epilogue of `tokenize`: `if start != -1`, append the final word
`data[start : len(data)-shift]`, i.e. `out.drop start`. -/
def tkFinish (s : TkState) : List (List Nat) :=
  match s.start with
  | some st => s.tokens ++ [s.out.drop st]
  | none => s.tokens

/-- `tokenize` (parse.go): split `data` around unquoted, unescaped
whitespace runs, deleting structural quotes and backslashes. -/
def tokenize (data : List Nat) : List (List Nat) :=
  tkFinish (data.foldl tkStep tkInit)

/-- The compacted prefix `data[0 : len(data)-shift]` left in the buffer by
`tokenize` after all in-place writes. -/
def tkOut (data : List Nat) : List Nat :=
  (data.foldl tkStep tkInit).out

/-- The whole buffer after `tokenize` returns: the compacted prefix
followed by the untouched tail of the original array. -/
def tkBuffer (data : List Nat) : List Nat :=
  tkOut data ++ data.drop (tkOut data).length

/-- One iteration of the `countMaxTokens` loop (parse.go): the pair is
`(n, wasSpace)`. -/
def cmStep (p : Nat × Bool) (c : Nat) : Nat × Bool :=
  (if p.2 = true ∧ isSpace c = false then p.1 + 1 else p.1, isSpace c)

/-- `countMaxTokens` (parse.go): number of maximal non-whitespace runs,
ignoring quotes and backslashes. -/
def countMaxTokens (data : List Nat) : Nat :=
  (data.foldl cmStep (0, true)).1

/-- `dropCR` (parse.go): drop a terminal carriage return. -/
def dropCR (l : List Nat) : List Nat :=
  if l.getLast? = some 13 then l.dropLast else l

/-- The `escaped` / `quote` update of the `scanLines` loop (parse.go),
performed for every byte that does not end the line. -/
def slStep (s : Bool × Nat) (c : Nat) : Bool × Nat :=
  ( if s.1 = false ∧ c = 92 then true else false
  , if s.2 = 0 then (if s.1 = false ∧ (c = 39 ∨ c = 34) then c else 0)
    else (if s.1 = false ∧ c = s.2 then 0 else s.2) )

/-- The scanning loop of `scanLines` (parse.go): starting from the given
`escaped` / `quote` state, return the content before the first newline
seen in the unquoted state together with the bytes after it, or `none`
when no such newline occurs. -/
def splitFirst (e : Bool) (q : Nat) : List Nat → Option (List Nat × List Nat)
  | [] => none
  | c :: cs =>
    if q = 0 ∧ c = 10 then some ([], cs)
    else
      match splitFirst (slStep (e, q) c).1 (slStep (e, q) c).2 cs with
      | some (pre, post) => some (c :: pre, post)
      | none => none

/-- A newline at index `i` that the `scanLines` loop, started in state
`s`, would reach in the unquoted state — the spec-level description of a
logical-line terminator. -/
def termBreak (s : Bool × Nat) (data : List Nat) (i : Nat) : Prop :=
  data[i]? = some 10 ∧ ((data.take i).foldl slStep s).2 = 0

instance (s : Bool × Nat) (data : List Nat) (i : Nat) :
    Decidable (termBreak s data i) := by
  unfold termBreak; infer_instance

/-- Fuel-indexed driver for the `bufio.Scanner` loop over `scanLines`
(parse.go): emit `dropCR` of each segment ended by an unquoted newline;
at end of input a non-empty remainder is emitted as a final line
(`if atEOF { return len(data), dropCR(data), nil }`). -/
def splitLinesFuel : Nat → List Nat → List (List Nat)
  | 0, _ => []
  | fuel + 1, data =>
    match splitFirst false 0 data with
    | some (pre, post) => dropCR pre :: splitLinesFuel fuel post
    | none => if data = [] then [] else [dropCR data]

/-- The sequence of logical lines `newLineScanner`'s `scanLines` split
function produces from a byte stream (parse.go). -/
def splitLines (data : List Nat) : List (List Nat) :=
  splitLinesFuel (data.length + 1) data

/-- One iteration of `lineReader.Read` (parse.go): the pair is the output
written so far and the `escaped` flag.  On an escaped newline the source
does `shift += 2; n -= 2`, which removes the newline and un-writes the
backslash written one step earlier; functionally `dropLast` plus skipping
the newline. -/
def lineReaderStep (s : List Nat × Bool) (c : Nat) : List Nat × Bool :=
  if s.2 = true ∧ c = 10 then (s.1.dropLast, false)
  else (s.1 ++ [c], if s.2 = false ∧ c = 92 then true else false)

/-- `lineReader.Read` over a whole stream (parse.go): remove every
unescaped backslash-newline pair. -/
def removeEscNL (data : List Nat) : List Nat :=
  (data.foldl lineReaderStep ([], false)).1

/-- The Line Assembler of the spec: `newLineScanner` composes
`lineReader` with the `scanLines` split function (parse.go). -/
def assemble (data : List Nat) : List (List Nat) :=
  splitLines (removeEscNL data)

lemma length_dropWhile_le (p : Nat → Bool) :
    ∀ l : List Nat, (l.dropWhile p).length ≤ l.length := by
  intro l
  induction l with
  | nil => simp [List.dropWhile]
  | cons c cs ih =>
    simp only [List.dropWhile]
    cases p c
    · simp
    · simpa using Nat.le_succ_of_le ih

/-- Splitting a line on maximal runs of whitespace characters: skip
whitespace; otherwise the maximal run of non-whitespace characters is one
field.  This is the spec's description of plain field splitting, written
independently of `tokenize`. -/
def wsSplit : List Nat → List (List Nat)
  | [] => []
  | c :: cs =>
    if isSpace c = true then wsSplit cs
    else (c :: cs.takeWhile (fun d => ! isSpace d)) ::
         wsSplit (cs.dropWhile (fun d => ! isSpace d))
termination_by l => l.length
decreasing_by
  · simp
  · have h := length_dropWhile_le (fun d => ! isSpace d) cs
    simp; omega

/-- Joining a token list with a single space between members — the spec's
"concatenation-with-single-space". -/
def joinSpace : List (List Nat) → List Nat
  | [] => []
  | [t] => t
  | t :: ts => t ++ 32 :: joinSpace ts

/-! ### Lemmas about the line scanner -/

lemma termBreak_zero (e : Bool) (q : Nat) (c : Nat) (cs : List Nat) :
    termBreak (e, q) (c :: cs) 0 ↔ (c = 10 ∧ q = 0) := by
  simp [termBreak]

lemma termBreak_succ (e : Bool) (q : Nat) (c : Nat) (cs : List Nat) (i : Nat) :
    termBreak (e, q) (c :: cs) (i + 1) ↔ termBreak (slStep (e, q) c) cs i := by
  simp [termBreak, List.take_succ_cons]

lemma splitFirst_append : ∀ (data : List Nat) (e : Bool) (q : Nat) (pre post : List Nat),
    splitFirst e q data = some (pre, post) → data = pre ++ 10 :: post
  | [], e, q, pre, post, h => by simp [splitFirst] at h
  | c :: cs, e, q, pre, post, h => by
    by_cases hb : q = 0 ∧ c = 10
    · simp only [splitFirst, if_pos hb, Option.some.injEq, Prod.mk.injEq] at h
      rw [← h.1, ← h.2, hb.2]
      simp
    · simp only [splitFirst, if_neg hb] at h
      cases hm : splitFirst (slStep (e, q) c).1 (slStep (e, q) c).2 cs with
      | none => rw [hm] at h; simp at h
      | some pp =>
        obtain ⟨pre', post'⟩ := pp
        rw [hm] at h
        simp only [Option.some.injEq, Prod.mk.injEq] at h
        have hrec := splitFirst_append cs _ _ pre' post' hm
        rw [← h.1, ← h.2, hrec]
        simp

lemma splitFirst_some : ∀ (data : List Nat) (e : Bool) (q : Nat) (pre post : List Nat),
    splitFirst e q data = some (pre, post) →
    ∃ i, pre = data.take i ∧ post = data.drop (i + 1) ∧
      termBreak (e, q) data i ∧ ∀ j < i, ¬ termBreak (e, q) data j
  | [], e, q, pre, post, h => by simp [splitFirst] at h
  | c :: cs, e, q, pre, post, h => by
    by_cases hb : q = 0 ∧ c = 10
    · simp only [splitFirst, if_pos hb, Option.some.injEq, Prod.mk.injEq] at h
      refine ⟨0, ?_, ?_, ?_, ?_⟩
      · rw [← h.1]; simp
      · rw [← h.2]; simp
      · exact (termBreak_zero e q c cs).mpr ⟨hb.2, hb.1⟩
      · intro j hj; omega
    · simp only [splitFirst, if_neg hb] at h
      cases hm : splitFirst (slStep (e, q) c).1 (slStep (e, q) c).2 cs with
      | none => rw [hm] at h; simp at h
      | some pp =>
        obtain ⟨pre', post'⟩ := pp
        rw [hm] at h
        simp only [Option.some.injEq, Prod.mk.injEq] at h
        obtain ⟨i, h1, h2, h3, h4⟩ := splitFirst_some cs _ _ pre' post' hm
        refine ⟨i + 1, ?_, ?_, ?_, ?_⟩
        · rw [← h.1, h1]; simp [List.take_succ_cons]
        · rw [← h.2, h2]; simp
        · exact (termBreak_succ e q c cs i).mpr h3
        · intro j hj
          cases j with
          | zero =>
            rw [termBreak_zero]
            intro hc; exact hb ⟨hc.2, hc.1⟩
          | succ k =>
            rw [termBreak_succ]
            exact h4 k (by omega)

lemma splitFirst_of_break : ∀ (data : List Nat) (e : Bool) (q : Nat) (i : Nat),
    termBreak (e, q) data i → (∀ j < i, ¬ termBreak (e, q) data j) →
    splitFirst e q data = some (data.take i, data.drop (i + 1))
  | [], e, q, i, hb, _ => by simp [termBreak] at hb
  | c :: cs, e, q, 0, hb, _ => by
    have := (termBreak_zero e q c cs).mp hb
    simp [splitFirst, this.1, this.2]
  | c :: cs, e, q, i + 1, hb, hmin => by
    have h0 : ¬ (c = 10 ∧ q = 0) := by
      rw [← termBreak_zero e q c cs]
      exact hmin 0 (by omega)
    have hb' : ¬ (q = 0 ∧ c = 10) := fun hh => h0 ⟨hh.2, hh.1⟩
    have hrec := splitFirst_of_break cs (slStep (e, q) c).1 (slStep (e, q) c).2 i
      ((termBreak_succ e q c cs i).mp hb)
      (fun j hj => fun hcon => hmin (j + 1) (by omega) ((termBreak_succ e q c cs j).mpr hcon))
    simp only [splitFirst, if_neg hb', hrec]
    simp [List.take_succ_cons]

lemma splitFirst_none : ∀ (data : List Nat) (e : Bool) (q : Nat),
    splitFirst e q data = none → ∀ i, ¬ termBreak (e, q) data i
  | [], e, q, _, i => by simp [termBreak]
  | c :: cs, e, q, h, i => by
    by_cases hb : q = 0 ∧ c = 10
    · simp [splitFirst, if_pos hb] at h
    · simp only [splitFirst, if_neg hb] at h
      cases hm : splitFirst (slStep (e, q) c).1 (slStep (e, q) c).2 cs with
      | some pp => rw [hm] at h; simp at h
      | none =>
        have hrec := splitFirst_none cs _ _ hm
        cases i with
        | zero =>
          rw [termBreak_zero]
          intro hc; exact hb ⟨hc.2, hc.1⟩
        | succ k =>
          rw [termBreak_succ]
          exact hrec k

lemma splitFirst_none_of_nobreak (data : List Nat) (e : Bool) (q : Nat)
    (h : ∀ i < data.length, ¬ termBreak (e, q) data i) :
    splitFirst e q data = none := by
  cases hm : splitFirst e q data with
  | none => rfl
  | some pp =>
    obtain ⟨pre, post⟩ := pp
    obtain ⟨i, h1, h2, h3, _⟩ := splitFirst_some data e q pre post hm
    have happ := splitFirst_append data e q pre post hm
    have e1 : pre.length = min i data.length := by rw [h1]; simp
    have e2 : post.length = data.length - (i + 1) := by rw [h2]; simp
    have e3 : data.length = pre.length + (post.length + 1) := by
      conv_lhs => rw [happ]
      simp
    have hlen : i < data.length := by omega
    exact absurd h3 (h i hlen)

lemma splitFirst_post_lt (data : List Nat) (e : Bool) (q : Nat) (pre post : List Nat)
    (h : splitFirst e q data = some (pre, post)) : post.length < data.length := by
  have := splitFirst_append data e q pre post h
  rw [this]
  simp
  omega

lemma splitLinesFuel_congr : ∀ (n m : Nat) (data : List Nat),
    data.length < n → data.length < m → splitLinesFuel n data = splitLinesFuel m data
  | 0, _, data, hn, _ => by omega
  | _ + 1, 0, data, _, hm => by omega
  | n + 1, m + 1, data, hn, hm => by
    simp only [splitLinesFuel]
    cases hs : splitFirst false 0 data with
    | none => rfl
    | some pp =>
      obtain ⟨pre, post⟩ := pp
      have hlt := splitFirst_post_lt data false 0 pre post hs
      dsimp only
      rw [splitLinesFuel_congr n m post (by omega) (by omega)]

lemma splitLines_eq (data : List Nat) :
    splitLines data =
      match splitFirst false 0 data with
      | some (pre, post) => dropCR pre :: splitLines post
      | none => if data = [] then [] else [dropCR data] := by
  show splitLinesFuel (data.length + 1) data = _
  simp only [splitLinesFuel]
  cases hs : splitFirst false 0 data with
  | none => rfl
  | some pp =>
    obtain ⟨pre, post⟩ := pp
    have hlt := splitFirst_post_lt data false 0 pre post hs
    dsimp only [splitLines]
    rw [splitLinesFuel_congr data.length (post.length + 1) post (by omega) (by omega)]

/-! ### Lemmas about the tokenizer in a quoted region -/

lemma foldl_tk_quoted : ∀ (rest : List Nat) (s : TkState), s.escaped = false → s.quote ≠ 0 →
    (∀ c ∈ rest, c ≠ s.quote ∧ c ≠ 92) →
    List.foldl tkStep s rest = { s with out := s.out ++ rest }
  | [], s, _, _, _ => by simp
  | c :: rest, s, he, hq, hmem => by
    obtain ⟨hc1, hc2⟩ := hmem c (by simp)
    have hstep : tkStep s c = { s with out := s.out ++ [c] } := by
      cases s with
      | mk tokens out start wasSpace escaped quote =>
        simp only at he hq hc1 ⊢
        subst he
        simp [tkStep, hq, hc1, hc2]
    rw [List.foldl_cons, hstep]
    rw [foldl_tk_quoted rest { s with out := s.out ++ [c] } (by simp [he]) (by simp [hq])
      (by intro d hd; simpa using hmem d (by simp [hd]))]
    simp

/-! ### Claim theorems: Line Assembler -/

/-- C5: in the `scanLines` split function a newline ends the current
logical line exactly when the scanner's quote state is unquoted: when the
scan returns a line, it broke at the first newline reached with
`quote = 0`, every earlier newline of the line having been passed in a
quoted state (so it stays inside the emitted content); when it never
breaks, no newline of the data is reachable in the unquoted state. -/
theorem scanLines_newline_breaks_iff_unquoted :
    (∀ (data pre post : List Nat), splitFirst false 0 data = some (pre, post) →
       ∃ i, pre = data.take i ∧ post = data.drop (i + 1) ∧ termBreak (false, 0) data i ∧
         ∀ j < i, ¬ termBreak (false, 0) data j) ∧
    (∀ data : List Nat, splitFirst false 0 data = none →
       ∀ i, ¬ termBreak (false, 0) data i) :=
  ⟨fun data pre post h => splitFirst_some data false 0 pre post h,
   fun data h i => splitFirst_none data false 0 h i⟩

theorem scanLines_newline_breaks_iff_unquoted_witness :
    ∃ i, ([39, 10, 39] : List Nat) = List.take i [39, 10, 39, 10] ∧
      ([] : List Nat) = List.drop (i + 1) [39, 10, 39, 10] ∧
      termBreak (false, 0) [39, 10, 39, 10] i ∧
      ∀ j < i, ¬ termBreak (false, 0) [39, 10, 39, 10] j :=
  scanLines_newline_breaks_iff_unquoted.1 [39, 10, 39, 10] [39, 10, 39] [] (by decide)

/-- C4 counterexample: inside a single-quoted region the `lineReader`
still drops an unescaped backslash-newline pair — the assembled logical
line of the stream `'a\⏎b'⏎` is `'ab'`, with both the backslash and the
newline gone, contradicting the claim that inside a quoted region the two
characters are not dropped. -/
theorem lineReader_quote_state_cex :
    assemble [39, 97, 92, 10, 98, 39, 10] = [[39, 97, 98, 39]] ∧
    (92 : Nat) ∉ ([39, 97, 98, 39] : List Nat) ∧
    (10 : Nat) ∉ ([39, 97, 98, 39] : List Nat) := by
  decide

/-- C4 (amended): in the Line Assembler a backslash immediately followed
by a newline is a continuation — both characters dropped — exactly when
the backslash is not itself escaped, regardless of quote state: the
`lineReader` pass that removes the pair runs before any quote tracking.
An escaped backslash followed by a newline is kept verbatim.  The spec's
own example still holds: assembling `a\⏎b⏎` yields the single line
`ab`. -/
theorem lineReader_continuation_amended :
    (∀ (out rest : List Nat),
        List.foldl lineReaderStep (out, false) (92 :: 10 :: rest) =
          List.foldl lineReaderStep (out, false) rest) ∧
    (∀ (out rest : List Nat),
        List.foldl lineReaderStep (out, true) (92 :: 10 :: rest) =
          List.foldl lineReaderStep (out ++ [92, 10], false) rest) ∧
    assemble [97, 92, 10, 98, 10] = [[97, 98]] := by
  refine ⟨fun out rest => ?_, fun out rest => ?_, by decide⟩
  · simp only [List.foldl_cons]
    congr 1
    simp [lineReaderStep]
  · simp only [List.foldl_cons]
    congr 1
    simp [lineReaderStep, List.append_assoc]

/-- C6: neither component fails on an unterminated quote.  In the
tokenizer, once a quote is open every remaining character other than the
closing quote and the backslash is consumed literally into the output
(whitespace no longer delimits: tokens, start and state are unchanged);
`tokenize "'a b"` gives the single token `a b` with the opening quote
stripped.  In the assembler, a non-empty stream in which no newline is
reachable in the unquoted state is emitted whole as one final logical
line at end of input. -/
theorem unterminated_quote_consumed :
    (∀ (s : TkState) (rest : List Nat), s.escaped = false → s.quote ≠ 0 →
        (∀ c ∈ rest, c ≠ s.quote ∧ c ≠ 92) →
        List.foldl tkStep s rest = { s with out := s.out ++ rest }) ∧
    (∀ data : List Nat, data ≠ [] → (∀ i < data.length, ¬ termBreak (false, 0) data i) →
        splitLines data = [dropCR data]) ∧
    tokenize [39, 97, 32, 98] = [[97, 32, 98]] := by
  refine ⟨fun s rest => foldl_tk_quoted rest s, ?_, by decide⟩
  intro data hne hnb
  rw [splitLines_eq, splitFirst_none_of_nobreak data false 0 hnb]
  simp [hne]

theorem unterminated_quote_consumed_witness :
    List.foldl tkStep ⟨[], [], some 0, false, false, 39⟩ [97, 32] =
      { (⟨[], [], some 0, false, false, 39⟩ : TkState) with out := ([] : List Nat) ++ [97, 32] } ∧
    splitLines [39, 97] = [dropCR [39, 97]] :=
  ⟨unterminated_quote_consumed.1 ⟨[], [], some 0, false, false, 39⟩ [97, 32] rfl
      (by decide) (by decide),
   unterminated_quote_consumed.2.1 [39, 97] (by decide) (by decide)⟩

/-- C7 counterexample: a stream ending in a carriage return with no
terminating newline — the final-line path of `scanLines` applies `dropCR`
to the pending data, so the carriage return of the stream `a\r` is
dropped even though it does not precede a terminating newline,
contradicting the claim that such carriage returns are kept. -/
theorem scanner_trailing_cr_cex :
    splitLines [97, 13] = [[97]] ∧ (13 : Nat) ∉ ([97] : List Nat) := by
  decide

/-- C7 (amended): each emitted logical line is `dropCR` of its raw
segment — a carriage return is dropped exactly when it is the last
character of the segment, i.e. immediately before the terminating
newline, or at the very end of a final line emitted at end of stream;
`dropCR` only ever removes a final `\r`, so carriage returns anywhere
else in a line are kept. -/
theorem scanner_trailing_cr_amended :
    (∀ (data : List Nat) (i : Nat), termBreak (false, 0) data i →
        (∀ j < i, ¬ termBreak (false, 0) data j) →
        splitLines data = dropCR (data.take i) :: splitLines (data.drop (i + 1))) ∧
    (∀ data : List Nat, data ≠ [] → (∀ i < data.length, ¬ termBreak (false, 0) data i) →
        splitLines data = [dropCR data]) ∧
    (∀ l : List Nat, (l.getLast? = some 13 → dropCR l = l.dropLast) ∧
        (l.getLast? ≠ some 13 → dropCR l = l)) := by
  refine ⟨?_, ?_, fun l => ⟨fun h => by simp [dropCR, h], fun h => by simp [dropCR, h]⟩⟩
  · intro data i hb hmin
    rw [splitLines_eq, splitFirst_of_break data false 0 i hb hmin]
  · intro data hne hnb
    rw [splitLines_eq, splitFirst_none_of_nobreak data false 0 hnb]
    simp [hne]

theorem scanner_trailing_cr_amended_witness :
    splitLines [97, 13, 10, 98] =
      dropCR (List.take 2 [97, 13, 10, 98]) :: splitLines (List.drop (2 + 1) [97, 13, 10, 98]) :=
  scanner_trailing_cr_amended.1 [97, 13, 10, 98] 2 (by decide) (by decide)

/-! ### Lemmas about whitespace bytes -/

lemma isSpace_true_ne {c : Nat} (h : isSpace c = true) : c ≠ 92 ∧ c ≠ 39 ∧ c ≠ 34 := by
  refine ⟨?_, ?_, ?_⟩ <;> rintro rfl <;> exact absurd h (by decide)

/-! ### Claim theorems: tokenizer escapes and quotes -/

/-- C2: from any unescaped tokenizer state (with a quote value the loop
can actually hold), processing a backslash and then any character `c`
removes the backslash and copies `c` verbatim into the output — the token
list is untouched (so an escaped whitespace never delimits), the quote
state is untouched, and the escape flag is clear afterwards (so `\\`
yields exactly one literal backslash and starts no new escape); in the
unquoted state the backslash also opens a field if one was not open.
Concretely, `a\ b` is the single token `a b` and `a\\b` the single token
`a\b`. -/
theorem tokenizer_backslash_escape (s : TkState) (c : Nat)
    (he : s.escaped = false) (hq : s.quote = 0 ∨ s.quote = 39 ∨ s.quote = 34) :
    (tkStep (tkStep s 92) c =
      if s.quote = 0 then
        { s with out := s.out ++ [c], wasSpace := false,
                 start := if s.wasSpace = true then some s.out.length else s.start }
      else { s with out := s.out ++ [c] }) ∧
    tokenize [97, 92, 32, 98] = [[97, 32, 98]] ∧
    tokenize [97, 92, 92, 98] = [[97, 92, 98]] := by
  refine ⟨?_, by decide, by decide⟩
  cases s with
  | mk tokens out start wasSpace escaped quote =>
    simp only at he hq ⊢
    subst he
    have h92 : isSpace 92 = false := rfl
    rcases hq with h0 | h0 | h0 <;> subst h0 <;> simp [tkStep, h92]

theorem tokenizer_backslash_escape_witness :
    (tkStep (tkStep tkInit 92) 32 =
      if tkInit.quote = 0 then
        { tkInit with out := tkInit.out ++ [32], wasSpace := false,
                      start := if tkInit.wasSpace = true then some tkInit.out.length
                               else tkInit.start }
      else { tkInit with out := tkInit.out ++ [32] }) ∧
    tokenize [97, 92, 32, 98] = [[97, 32, 98]] ∧
    tokenize [97, 92, 92, 98] = [[97, 92, 98]] :=
  tokenizer_backslash_escape tkInit 32 rfl (Or.inl rfl)

/-- C3: an unescaped quote character in the unquoted state opens a quoted
region of that kind and is not written to the output (it may also open a
field); the matching unescaped quote character closes the region, again
without being written; and a quote character different from the currently
open one is copied literally and toggles nothing. -/
theorem tokenizer_quote_transitions (s : TkState) (c : Nat)
    (he : s.escaped = false) (hc : c = 39 ∨ c = 34) :
    tkStep s c =
      if s.quote = 0 then
        { s with quote := c, wasSpace := false,
                 start := if s.wasSpace = true then some s.out.length else s.start }
      else if s.quote = c then { s with quote := 0 }
      else { s with out := s.out ++ [c] } := by
  cases s with
  | mk tokens out start wasSpace escaped quote =>
    simp only at he ⊢
    subst he
    by_cases hq0 : quote = 0
    · subst hq0
      rcases hc with h | h <;> subst h <;> simp [tkStep, show isSpace 39 = false from rfl,
        show isSpace 34 = false from rfl]
    · by_cases hqc : quote = c
      · subst hqc
        rcases hc with h | h <;> subst h <;> simp [tkStep]
      · have h1 : c ≠ quote := fun hh => hqc hh.symm
        rcases hc with h | h <;> subst h <;>
          simp [tkStep, hq0, hqc, h1, show (39 : Nat) ≠ 92 from by decide,
            show (34 : Nat) ≠ 92 from by decide]

theorem tokenizer_quote_transitions_witness :
    tkStep tkInit 39 =
      if tkInit.quote = 0 then
        { tkInit with quote := 39, wasSpace := false,
                      start := if tkInit.wasSpace = true then some tkInit.out.length
                               else tkInit.start }
      else if tkInit.quote = 39 then { tkInit with quote := 0 }
      else { tkInit with out := tkInit.out ++ [39] } :=
  tokenizer_quote_transitions tkInit 39 rfl (Or.inl rfl)

/-! ### The token-count bound -/

/-- `1` when a token is pending (Go `start != -1`), else `0`. -/
def startBit : Option Nat → Nat
  | none => 0
  | some _ => 1

/-- Invariant pairing the `tokenize` loop state with the `countMaxTokens`
loop state: tokens made so far (plus a pending one) never exceed the run
count, and whenever `tokenize`'s `wasSpace` is set the counter's
`wasSpace` is set too, no escape is pending and no quote is open. -/
def tkcmInv (s : TkState) (p : Nat × Bool) : Prop :=
  s.tokens.length + startBit s.start ≤ p.1 ∧
  (s.wasSpace = true → (p.2 = true ∧ s.escaped = false ∧ s.quote = 0)) ∧
  (s.wasSpace = true ↔ s.start = none)

lemma cmStep_mono (p : Nat × Bool) (c : Nat) : p.1 ≤ (cmStep p c).1 := by
  unfold cmStep
  dsimp only
  split <;> omega

lemma tkcmInv_step (s : TkState) (p : Nat × Bool) (c : Nat)
    (h : tkcmInv s p) : tkcmInv (tkStep s c) (cmStep p c) := by
  obtain ⟨i1, i2, i3⟩ := h
  obtain ⟨n, w⟩ := p
  have hmono : n ≤ (cmStep (n, w) c).1 := cmStep_mono (n, w) c
  cases s with
  | mk tokens out start wasSpace escaped quote =>
    simp only at i1 i2 i3
    cases escaped with
    | true =>
      have hws : wasSpace = false := by
        cases wasSpace
        · rfl
        · exact absurd (i2 rfl).2.1 (by simp)
      subst hws
      refine ⟨?_, ?_, ?_⟩
      · simpa [tkStep] using le_trans i1 hmono
      · simp [tkStep]
      · simpa [tkStep] using i3
    | false =>
      by_cases hq : quote = 0
      · subst hq
        cases hsp : isSpace c with
        | false =>
          cases wasSpace with
          | false =>
            obtain ⟨st, hstart⟩ : ∃ st, start = some st := by
              cases hstart : start
              · exact absurd (i3.mpr hstart) (by simp)
              · exact ⟨_, rfl⟩
            subst hstart
            have h1 : tokens.length + 1 ≤ n := by simpa [startBit] using i1
            refine ⟨?_, ?_, ?_⟩
            · simp [tkStep, hsp, startBit]
              omega
            · simp [tkStep, hsp]
            · simp [tkStep, hsp]
          | true =>
            have hp2 : w = true := (i2 rfl).1
            subst hp2
            have hstart : start = none := i3.mp rfl
            subst hstart
            have h1 : tokens.length ≤ n := by simpa [startBit] using i1
            refine ⟨?_, ?_, ?_⟩
            · simp [tkStep, hsp, startBit, cmStep]
              omega
            · simp [tkStep, hsp]
            · simp [tkStep, hsp]
        | true =>
          have hcne := isSpace_true_ne hsp
          cases wasSpace with
          | false =>
            obtain ⟨st, hstart⟩ : ∃ st, start = some st := by
              cases hstart : start
              · exact absurd (i3.mpr hstart) (by simp)
              · exact ⟨_, rfl⟩
            subst hstart
            have h1 : tokens.length + 1 ≤ n := by simpa [startBit] using i1
            refine ⟨?_, ?_, ?_⟩
            · simp [tkStep, hsp, startBit]
              omega
            · simp [tkStep, cmStep, hsp, hcne.1, hcne.2.1, hcne.2.2]
            · simp [tkStep, hsp]
          | true =>
            have hp2 : w = true := (i2 rfl).1
            subst hp2
            have hstart : start = none := i3.mp rfl
            subst hstart
            have h1 : tokens.length ≤ n := by simpa [startBit] using i1
            refine ⟨?_, ?_, ?_⟩
            · simp [tkStep, hsp, startBit, cmStep]
              omega
            · simp [tkStep, cmStep, hsp, hcne.1, hcne.2.1, hcne.2.2]
            · simp [tkStep, hsp]
      · have hws : wasSpace = false := by
          cases wasSpace
          · rfl
          · exact absurd (i2 rfl).2.2 hq
        subst hws
        refine ⟨?_, ?_, ?_⟩
        · simpa [tkStep, hq] using le_trans i1 hmono
        · simp [tkStep, hq]
        · simpa [tkStep, hq] using i3

lemma tkcmInv_foldl : ∀ (data : List Nat) (s : TkState) (p : Nat × Bool),
    tkcmInv s p → tkcmInv (data.foldl tkStep s) (data.foldl cmStep p)
  | [], _, _, h => h
  | c :: cs, s, p, h =>
    tkcmInv_foldl cs (tkStep s c) (cmStep p c) (tkcmInv_step s p c h)

/-- C8: the number of tokens `tokenize` returns never exceeds
`countMaxTokens`, the number of maximal whitespace-delimited runs of
non-whitespace bytes counted while ignoring the structural role of quotes
and backslashes. -/
theorem tokenize_length_le_countMaxTokens (data : List Nat) :
    (tokenize data).length ≤ countMaxTokens data := by
  have h := tkcmInv_foldl data tkInit (0, true)
    ⟨by simp [tkInit, startBit], by simp [tkInit], by simp [tkInit]⟩
  obtain ⟨i1, -, -⟩ := h
  unfold tokenize tkFinish countMaxTokens
  cases hs : (data.foldl tkStep tkInit).start with
  | none =>
    rw [hs] at i1
    simpa [startBit] using i1
  | some st =>
    rw [hs] at i1
    simp only [startBit] at i1
    simpa using i1

/-! ### Plain whitespace splitting -/

lemma wsSplit_cons_space {c : Nat} (cs : List Nat) (h : isSpace c = true) :
    wsSplit (c :: cs) = wsSplit cs := by
  rw [wsSplit]
  simp [h]

lemma wsSplit_cons_nonspace {c : Nat} (cs : List Nat) (h : isSpace c = false) :
    wsSplit (c :: cs) =
      (c :: cs.takeWhile (fun d => ! isSpace d)) ::
        wsSplit (cs.dropWhile (fun d => ! isSpace d)) := by
  rw [wsSplit]
  simp [h]

lemma takeWhile_append_all (p : Nat → Bool) :
    ∀ (l r : List Nat), (∀ x ∈ l, p x = true) → (l ++ r).takeWhile p = l ++ r.takeWhile p
  | [], r, _ => by simp
  | x :: l, r, h => by
    have hx : p x = true := h x (by simp)
    simp only [List.cons_append, List.takeWhile_cons, hx, if_true]
    rw [takeWhile_append_all p l r (fun y hy => h y (by simp [hy]))]

lemma dropWhile_append_all (p : Nat → Bool) :
    ∀ (l r : List Nat), (∀ x ∈ l, p x = true) → (l ++ r).dropWhile p = r.dropWhile p
  | [], r, _ => by simp
  | x :: l, r, h => by
    have hx : p x = true := h x (by simp)
    simp only [List.cons_append, List.dropWhile_cons, hx, if_true]
    exact dropWhile_append_all p l r (fun y hy => h y (by simp [hy]))

/-! ### The tokenizer on input without structural characters -/

lemma tok_split : ∀ (rest : List Nat),
    (∀ c ∈ rest, c ≠ 39 ∧ c ≠ 34 ∧ c ≠ 92) →
    (∀ (tokens : List (List Nat)) (out : List Nat),
       tkFinish (List.foldl tkStep ⟨tokens, out, none, true, false, 0⟩ rest) =
         tokens ++ wsSplit rest) ∧
    (∀ (tokens : List (List Nat)) (out : List Nat) (st : Nat), st ≤ out.length →
       tkFinish (List.foldl tkStep ⟨tokens, out, some st, false, false, 0⟩ rest) =
         tokens ++ (out.drop st ++ rest.takeWhile (fun d => ! isSpace d)) ::
           wsSplit (rest.dropWhile (fun d => ! isSpace d)))
  | [], _ => by
    constructor
    · intro tokens out
      simp [tkFinish, wsSplit]
    · intro tokens out st _
      simp [tkFinish, wsSplit]
  | c :: cs, hns => by
    have hc := hns c (by simp)
    have hcs : ∀ d ∈ cs, d ≠ 39 ∧ d ≠ 34 ∧ d ≠ 92 := fun d hd => hns d (by simp [hd])
    obtain ⟨ih1, ih2⟩ := tok_split cs hcs
    constructor
    · intro tokens out
      cases hsp : isSpace c with
      | true =>
        have hne := isSpace_true_ne hsp
        have hstep : tkStep ⟨tokens, out, none, true, false, 0⟩ c =
            ⟨tokens, out ++ [c], none, true, false, 0⟩ := by
          simp [tkStep, hsp, hne.1, hne.2.1, hne.2.2]
        rw [List.foldl_cons, hstep, ih1, wsSplit_cons_space cs hsp]
      | false =>
        have hstep : tkStep ⟨tokens, out, none, true, false, 0⟩ c =
            ⟨tokens, out ++ [c], some out.length, false, false, 0⟩ := by
          simp [tkStep, hsp, hc.1, hc.2.1, hc.2.2]
        rw [List.foldl_cons, hstep, ih2 tokens (out ++ [c]) out.length (by simp),
          wsSplit_cons_nonspace cs hsp]
        simp
    · intro tokens out st hst
      cases hsp : isSpace c with
      | true =>
        have hne := isSpace_true_ne hsp
        have hstep : tkStep ⟨tokens, out, some st, false, false, 0⟩ c =
            ⟨tokens ++ [out.drop st], out ++ [c], none, true, false, 0⟩ := by
          simp [tkStep, hsp, hne.1, hne.2.1, hne.2.2]
        rw [List.foldl_cons, hstep, ih1]
        simp only [List.takeWhile_cons, List.dropWhile_cons, hsp]
        simp [wsSplit_cons_space cs hsp]
      | false =>
        have hstep : tkStep ⟨tokens, out, some st, false, false, 0⟩ c =
            ⟨tokens, out ++ [c], some st, false, false, 0⟩ := by
          simp [tkStep, hsp, hc.1, hc.2.1, hc.2.2]
        rw [List.foldl_cons, hstep, ih2 tokens (out ++ [c]) st (by simp; omega),
          List.drop_append_of_le_length hst]
        simp only [List.takeWhile_cons, List.dropWhile_cons, hsp]
        simp

/-- The tokenizer agrees with plain whitespace splitting on any input
without quote or backslash bytes. -/
lemma tokenize_nospecial (data : List Nat)
    (h : ∀ c ∈ data, c ≠ 39 ∧ c ≠ 34 ∧ c ≠ 92) :
    tokenize data = wsSplit data := by
  have := (tok_split data h).1 [] []
  simpa [tokenize, tkInit] using this

lemma wsSplit_all_space (data : List Nat) (h : ∀ c ∈ data, isSpace c = true) :
    wsSplit data = [] := by
  induction data with
  | nil => simp [wsSplit]
  | cons c cs ih =>
    rw [wsSplit_cons_space cs (h c (by simp))]
    exact ih (fun d hd => h d (by simp [hd]))

/-- C1: on a string with no quote and no backslash bytes, `tokenize`
returns exactly the fields obtained by splitting on maximal whitespace
runs; in particular an empty or all-whitespace input yields the empty
token list. -/
theorem tokenize_eq_wsSplit (data : List Nat)
    (h : ∀ c ∈ data, c ≠ 39 ∧ c ≠ 34 ∧ c ≠ 92) :
    tokenize data = wsSplit data ∧
    ((∀ c ∈ data, isSpace c = true) → tokenize data = []) := by
  refine ⟨tokenize_nospecial data h, fun hsp => ?_⟩
  rw [tokenize_nospecial data h]
  exact wsSplit_all_space data hsp

theorem tokenize_eq_wsSplit_witness :
    (tokenize [97, 32, 32, 98, 99] = wsSplit [97, 32, 32, 98, 99] ∧
      ((∀ c ∈ ([97, 32, 32, 98, 99] : List Nat), isSpace c = true) →
        tokenize [97, 32, 32, 98, 99] = [])) ∧
    (tokenize [32, 9, 32] = wsSplit [32, 9, 32] ∧
      ((∀ c ∈ ([32, 9, 32] : List Nat), isSpace c = true) → tokenize [32, 9, 32] = [])) :=
  ⟨tokenize_eq_wsSplit [97, 32, 32, 98, 99] (by decide),
   tokenize_eq_wsSplit [32, 9, 32] (by decide)⟩

/-! ### The round trip through joinSpace -/

lemma mem_joinSpace : ∀ (ts : List (List Nat)) (c : Nat),
    c ∈ joinSpace ts → c = 32 ∨ ∃ t ∈ ts, c ∈ t
  | [], c, h => by simp [joinSpace] at h
  | [t], c, h => by
    simp only [joinSpace] at h
    exact Or.inr ⟨t, by simp, h⟩
  | t :: t' :: ts, c, h => by
    simp only [joinSpace, List.mem_append, List.mem_cons] at h
    rcases h with h | h | h
    · exact Or.inr ⟨t, by simp, h⟩
    · exact Or.inl h
    · rcases mem_joinSpace (t' :: ts) c h with h32 | ⟨u, hu, hcu⟩
      · exact Or.inl h32
      · exact Or.inr ⟨u, by simp [List.mem_cons] at hu ⊢; tauto, hcu⟩

lemma wsSplit_append_token (t rest : List Nat) (hne : t ≠ [])
    (hns : ∀ c ∈ t, isSpace c = false) :
    wsSplit (t ++ rest) =
      (t ++ rest.takeWhile (fun d => ! isSpace d)) ::
        wsSplit (rest.dropWhile (fun d => ! isSpace d)) := by
  obtain ⟨c, tl, rfl⟩ : ∃ c tl, t = c :: tl := by
    cases t with
    | nil => exact absurd rfl hne
    | cons c tl => exact ⟨c, tl, rfl⟩
  have hc : isSpace c = false := hns c (by simp)
  have htl : ∀ x ∈ tl, (fun d => ! isSpace d) x = true := by
    intro x hx
    simp [hns x (by simp [hx])]
  rw [List.cons_append, wsSplit_cons_nonspace (tl ++ rest) hc,
    takeWhile_append_all _ tl rest htl, dropWhile_append_all _ tl rest htl]
  simp

lemma wsSplit_joinSpace : ∀ ts : List (List Nat),
    (∀ t ∈ ts, t ≠ [] ∧ ∀ c ∈ t, isSpace c = false) →
    wsSplit (joinSpace ts) = ts
  | [], _ => by simp [joinSpace, wsSplit]
  | [t], h => by
    obtain ⟨hne, hns⟩ := h t (by simp)
    simp only [joinSpace]
    have := wsSplit_append_token t [] hne hns
    simpa [wsSplit] using this
  | t :: t' :: ts, h => by
    obtain ⟨hne, hns⟩ := h t (by simp)
    simp only [joinSpace]
    rw [wsSplit_append_token t (32 :: joinSpace (t' :: ts)) hne hns]
    simp only [List.takeWhile_cons, List.dropWhile_cons,
      show isSpace 32 = true from rfl, Bool.not_true, Bool.false_eq_true,
      if_false, List.append_nil]
    rw [wsSplit_cons_space (c := 32) (joinSpace (t' :: ts)) rfl,
      wsSplit_joinSpace (t' :: ts) (fun u hu => h u (by simp [List.mem_cons] at hu ⊢; tauto))]

/-- C9 counterexample: `tokenize "'a b'"` produces the token list
`["a b"]`, whose single member contains no quote or backslash character;
joining with a single space gives `"a b"`, which re-tokenizes to
`["a", "b"]`, not `["a b"]` — the claimed round trip fails because a
member may contain whitespace (it can also fail on the empty token
produced by `''`). -/
theorem tokenize_roundtrip_cex :
    tokenize [39, 97, 32, 98, 39] = [[97, 32, 98]] ∧
    tokenize (joinSpace [[97, 32, 98]]) = [[97], [98]] ∧
    ([[97], [98]] : List (List Nat)) ≠ [[97, 32, 98]] := by
  decide

/-- C9 (amended): for any token list whose members are non-empty and
contain no whitespace, quote or backslash characters, joining the members
with a single space and tokenizing the result reproduces the same token
list. -/
theorem tokenize_roundtrip_amended (ts : List (List Nat))
    (h : ∀ t ∈ ts, t ≠ [] ∧ ∀ c ∈ t, isSpace c = false ∧ c ≠ 39 ∧ c ≠ 34 ∧ c ≠ 92) :
    tokenize (joinSpace ts) = ts := by
  have hns : ∀ c ∈ joinSpace ts, c ≠ 39 ∧ c ≠ 34 ∧ c ≠ 92 := by
    intro c hc
    rcases mem_joinSpace ts c hc with h32 | ⟨t, ht, hct⟩
    · subst h32
      exact ⟨by decide, by decide, by decide⟩
    · exact ((h t ht).2 c hct).2
  rw [tokenize_nospecial _ hns]
  exact wsSplit_joinSpace ts (fun t ht => ⟨(h t ht).1, fun c hc => ((h t ht).2 c hc).1⟩)

theorem tokenize_roundtrip_amended_witness :
    tokenize (joinSpace [[97], [98, 99]]) = [[97], [98, 99]] :=
  tokenize_roundtrip_amended [[97], [98, 99]] (by decide)

/-! ### In-place compaction facts -/

lemma tkStep_out_cases (s : TkState) (c : Nat) :
    (tkStep s c).out = s.out ∨ (tkStep s c).out = s.out ++ [c] := by
  by_cases h1 : s.escaped = true
  · right; simp [tkStep, h1]
  · by_cases h2 : s.quote = 0
    · by_cases h3 : c = 92 ∨ c = 39 ∨ c = 34
      · left; simp [tkStep, h1, h2, h3]
      · right; simp [tkStep, h1, h2, h3]
    · by_cases h3 : c = 92 ∨ c = s.quote
      · left; simp [tkStep, h1, h2, h3]
      · right; simp [tkStep, h1, h2, h3]

lemma tkStep_tokens_cases (s : TkState) (c : Nat) :
    (tkStep s c).tokens = s.tokens ∨
    (tkStep s c).tokens = s.tokens ++ [s.out.drop (s.start.getD 0)] := by
  by_cases h1 : s.escaped = true
  · left; simp [tkStep, h1]
  · by_cases h2 : s.quote = 0
    · by_cases h3 : s.wasSpace = false ∧ isSpace c = true
      · right; simp [tkStep, h1, h2, h3]
      · left; simp [tkStep, h1, h2, h3]
    · left; simp [tkStep, h1, h2]

lemma foldl_out_ext : ∀ (l : List Nat) (s : TkState),
    ∃ d, (List.foldl tkStep s l).out = s.out ++ d
  | [], s => ⟨[], by simp⟩
  | c :: l, s => by
    obtain ⟨d2, h2⟩ := foldl_out_ext l (tkStep s c)
    rcases tkStep_out_cases s c with h1 | h1
    · exact ⟨d2, by rw [List.foldl_cons, h2, h1]⟩
    · exact ⟨[c] ++ d2, by rw [List.foldl_cons, h2, h1, List.append_assoc]⟩

lemma foldl_out_len : ∀ (l : List Nat) (s : TkState),
    (List.foldl tkStep s l).out.length ≤ s.out.length + l.length
  | [], s => by simp
  | c :: l, s => by
    have h2 := foldl_out_len l (tkStep s c)
    rcases tkStep_out_cases s c with h1 | h1 <;>
      rw [List.foldl_cons] at * <;> rw [h1] at h2 <;> simp at h2 ⊢ <;> omega

lemma tokens_infix_invariant : ∀ (l : List Nat) (s : TkState),
    (∀ t ∈ s.tokens, ∃ a b, s.out = a ++ t ++ b) →
    ∀ t ∈ (List.foldl tkStep s l).tokens,
      ∃ a b, (List.foldl tkStep s l).out = a ++ t ++ b
  | [], _, h => h
  | c :: l, s, h => by
    rw [List.foldl_cons]
    apply tokens_infix_invariant l (tkStep s c)
    intro t ht
    have hext : ∃ d, (tkStep s c).out = s.out ++ d := by
      rcases tkStep_out_cases s c with h1 | h1
      · exact ⟨[], by simp [h1]⟩
      · exact ⟨[c], h1⟩
    obtain ⟨d, hout⟩ := hext
    rcases tkStep_tokens_cases s c with he | he
    · rw [he] at ht
      obtain ⟨a, b, hab⟩ := h t ht
      exact ⟨a, b ++ d, by rw [hout, hab]; simp [List.append_assoc]⟩
    · rw [he] at ht
      rcases List.mem_append.mp ht with hin | hin
      · obtain ⟨a, b, hab⟩ := h t hin
        exact ⟨a, b ++ d, by rw [hout, hab]; simp [List.append_assoc]⟩
      · have ht' : t = s.out.drop (s.start.getD 0) := by simpa using hin
        subst ht'
        exact ⟨s.out.take (s.start.getD 0), d, by rw [hout]; simp⟩

/-- C10: `tokenize` reuses its argument as scratch space — the decoded
bytes are compacted into a prefix of the buffer no longer than the input
(structural quote and backslash bytes are deleted in place), every
returned token is a contiguous segment of that compacted prefix, and the
buffer is genuinely overwritten: for the input `'a'` the resulting buffer
differs from the original bytes. -/
theorem tokenize_in_place_aliasing :
    (∀ (data t : List Nat), t ∈ tokenize data → ∃ a b, tkOut data = a ++ t ++ b) ∧
    (∀ data : List Nat, (tkOut data).length ≤ data.length) ∧
    tkBuffer [39, 97, 39] ≠ [39, 97, 39] := by
  refine ⟨?_, ?_, by decide⟩
  · intro data t ht
    have hbase := tokens_infix_invariant data tkInit (by simp [tkInit]) t
    have htf : t ∈ tkFinish (List.foldl tkStep tkInit data) := ht
    unfold tkOut
    cases hstart : (List.foldl tkStep tkInit data).start with
    | none =>
      rw [tkFinish, hstart] at htf
      exact hbase htf
    | some st =>
      rw [tkFinish, hstart] at htf
      rcases List.mem_append.mp htf with hin | hin
      · exact hbase hin
      · have ht' : t = (List.foldl tkStep tkInit data).out.drop st := by simpa using hin
        subst ht'
        exact ⟨(List.foldl tkStep tkInit data).out.take st, [], by simp⟩
  · intro data
    have := foldl_out_len data tkInit
    simpa [tkOut, tkInit] using this

theorem tokenize_in_place_aliasing_witness :
    ∃ a b, tkOut [97, 32, 98] = a ++ [97] ++ b :=
  tokenize_in_place_aliasing.1 [97, 32, 98] [97] (by decide)
